import Mathlib

/-!
Verification development for the PDF knowledge-base engine (src/app.py).

The core of the program is shallowly embedded here:
  * the Corpus Builder (load_and_parse_pdfs),
  * the Action Classifier (extract_action_items),
  * the Substring Search mode (Global Search),
  * the Relevance Scorer (Chat/Query mode),
  * the three-casing highlight step of the search mode.

Python string primitives (lower, capitalize, strip, split, replace,
substring containment) are modelled as executable functions over lists of
characters.  Case mapping is modelled at the ASCII level (the Python
functions also fold some non-ASCII letters; every marker, query and
example relevant to the claims is ASCII).
-/

namespace PdfBrain

/-- Python whitespace characters (the ASCII ones recognised by str.strip
and str.split). -/
def isWs (c : Char) : Bool :=
  c == ' ' || c == '\t' || c == '\n' || c == '\x0b' || c == '\x0c' || c == '\r'

/-- ASCII model of the case mapping used by str.lower. -/
def lowerChar (c : Char) : Char :=
  if 65 ≤ c.toNat ∧ c.toNat ≤ 90 then Char.ofNat (c.toNat + 32) else c

/-- ASCII model of the case mapping used by str.upper (first char of
str.capitalize). -/
def upperChar (c : Char) : Char :=
  if 97 ≤ c.toNat ∧ c.toNat ≤ 122 then Char.ofNat (c.toNat - 32) else c

/-- ASCII decimal digit, the model of the regex class \d. -/
def isDigitB (c : Char) : Bool :=
  48 ≤ c.toNat && c.toNat ≤ 57

/-- Lowercase a list of characters. -/
def lowerL (l : List Char) : List Char :=
  l.map lowerChar

/-- Boolean prefix test on character lists. -/
def pfx : List Char → List Char → Bool
  | [], _ => true
  | _ :: _, [] => false
  | a :: ps, b :: ss => a == b && pfx ps ss

/-- Python substring containment (the in operator on strings): the first
list occurs contiguously inside the second. -/
def occursIn (p : List Char) : List Char → Bool
  | [] => p.isEmpty
  | c :: t => pfx p (c :: t) || occursIn p t

/-- Drop leading Python whitespace. -/
def dropWs : List Char → List Char
  | [] => []
  | c :: t => if isWs c then dropWs t else c :: t

/-- Model of str.strip: drop whitespace at both ends. -/
def stripChars (l : List Char) : List Char :=
  ((dropWs l).reverse |> dropWs).reverse

/-- Model of str.split with a newline separator (empty parts kept,
as in Python str.split with an explicit separator). -/
def splitNlAux (acc : List Char) : List Char → List (List Char)
  | [] => [acc.reverse]
  | c :: t => if c == '\n' then acc.reverse :: splitNlAux [] t else splitNlAux (c :: acc) t

def splitNl (l : List Char) : List (List Char) :=
  splitNlAux [] l

/-- Model of str.split with no separator: split on whitespace runs,
discarding empty tokens. -/
def splitWsAux (acc : List Char) : List (List Char) → List Char → List (List Char)
  | toks, [] => if acc.isEmpty then toks.reverse else (acc.reverse :: toks).reverse
  | toks, c :: t =>
    if isWs c then
      if acc.isEmpty then splitWsAux [] toks t else splitWsAux [] (acc.reverse :: toks) t
    else splitWsAux (c :: acc) toks t

def splitWs (l : List Char) : List (List Char) :=
  splitWsAux [] [] l

/-- Replacement scanner for a non-empty pattern: skip counts characters
of an already matched pattern occurrence that still have to be consumed.
Scans left to right and replaces non-overlapping occurrences, exactly as
str.replace does for a non-empty pattern. -/
def replAux (old new : List Char) : List Char → Nat → List Char
  | [], _ => []
  | _ :: t, skip + 1 => replAux old new t skip
  | c :: t, 0 =>
    if pfx old (c :: t) then new ++ replAux old new t (old.length - 1)
    else c :: replAux old new t 0

/-- Model of str.replace with an empty pattern: the replacement is
inserted before every character and at the end. -/
def emptyRepl (new : List Char) : List Char → List Char
  | [] => new
  | c :: t => new ++ c :: emptyRepl new t

/-- Model of str.replace (all non-overlapping occurrences, left to
right). -/
def replChars (s old new : List Char) : List Char :=
  if old.isEmpty then emptyRepl new s else replAux old new s 0

/-- Model of str.lower on strings. -/
def pyLower (s : String) : String :=
  ⟨lowerL s.data⟩

/-- Model of str.capitalize: first character uppercased, the rest
lowercased. -/
def pyCapitalize (s : String) : String :=
  match s.data with
  | [] => ""
  | c :: t => ⟨upperChar c :: t.map lowerChar⟩

/-- Model of str.strip on strings. -/
def pyStrip (s : String) : String :=
  ⟨stripChars s.data⟩

/-- Model of str.replace on strings. -/
def pyReplace (s old new : String) : String :=
  ⟨replChars s.data old.data new.data⟩

/-- One row of the DataFrame built by load_and_parse_pdfs: a non-empty
line of extracted text together with its provenance. -/
structure LineRecord where
  file : String
  page : Nat
  line_index : Nat
  content : String
  full_page_text : String
deriving DecidableEq

/-- One uploaded document, as seen by load_and_parse_pdfs: its name and
the outcome of PyPDF2 parsing, either an error message or the list of
per-page extracted texts (the empty string standing for a page whose
extract_text yields no text, the falsy case of the if text check). -/
structure RawDoc where
  name : String
  parse : Except String (List String)

/-- The inner loop of load_and_parse_pdfs over the lines of one page:
each line is stripped and appended as a record when non-empty, with its
0-based index in the pre-strip split. -/
def lineRecs (file : String) (pnum : Nat) (fullText : String) : Nat → List String → List LineRecord
  | _, [] => []
  | idx, line :: rest =>
    (if pyStrip line = "" then [] else
      [{ file := file, page := pnum, line_index := idx,
         content := pyStrip line, full_page_text := fullText }]) ++
    lineRecs file pnum fullText (idx + 1) rest

/-- Records contributed by one page: nothing when extract_text was falsy,
otherwise the non-empty stripped lines of the newline split. -/
def pageRecords (file : String) (pnum : Nat) (text : String) : List LineRecord :=
  if text = "" then []
  else lineRecs file pnum text 0 ((splitNl text.data).map (fun l => ⟨l⟩))

/-- Records of a document's pages, numbered from pnum upward (the code
numbers pages i + 1 with i the 0-based enumeration index). -/
def pagesRecords (file : String) : Nat → List String → List LineRecord
  | _, [] => []
  | pnum, text :: rest => pageRecords file pnum text ++ pagesRecords file (pnum + 1) rest

/-- Records of one document: none when PyPDF2 raised. -/
def docRecords (d : RawDoc) : List LineRecord :=
  match d.parse with
  | .error _ => []
  | .ok pages => pagesRecords d.name 1 pages

/-- The Corpus Builder of src/app.py: records of all documents in upload
order; a document whose parse raised contributes nothing and processing
continues with the rest. -/
def load_and_parse_pdfs : List RawDoc → List LineRecord
  | [] => []
  | d :: rest => docRecords d ++ load_and_parse_pdfs rest

/-- The failures reported via st.error in the except branch: document
name plus cause, one per unparseable document. -/
def parseFailures : List RawDoc → List (String × String)
  | [] => []
  | d :: rest =>
    (match d.parse with | .error e => [(d.name, e)] | .ok _ => []) ++ parseFailures rest

/-- The boolean compiled from the classifier regex
Step \d+|Action|checkbox and bullet glyphs|Rule \d+|Metric, anchored at
the start, applied case-insensitively (str.contains with case=False,
regex=True): the content is lowercased and each alternative is tested as
a prefix, the step and rule alternatives demanding a digit right after
their keyword. -/
def matchesAction (s : String) : Bool :=
  let l := lowerL s.data
  (pfx ("step ".data) l && (match l.drop 5 with | [] => false | c :: _ => isDigitB c)) ||
  pfx ("action".data) l ||
  pfx ['☐'] l || pfx ['☑'] l || pfx ['✓'] l || pfx ['•'] l ||
  (pfx ("rule ".data) l && (match l.drop 5 with | [] => false | c :: _ => isDigitB c)) ||
  pfx ("metric".data) l

/-- The Action Classifier extract_action_items: the rows whose Content
matches the anchored pattern. -/
def extract_action_items (df : List LineRecord) : List LineRecord :=
  df.filter (fun r => matchesAction r.content)

/-- Case-insensitive literal containment, the match test of the Global
Search mode (str.contains with case=False, regex=False). -/
def searchMatch (q content : String) : Bool :=
  occursIn (lowerL q.data) (lowerL content.data)

/-- The Global Search mode of src/app.py, including the falsy-query
guard (if query:): for a non-empty query, the rows whose Content
contains the query case-insensitively. -/
def search (df : List LineRecord) (q : String) : List LineRecord :=
  if q = "" then [] else df.filter (fun r => searchMatch q r.content)

/-- The highlight step of the Global Search mode: three sequential
literal replacements of the query as typed, lowercased and capitalized,
each by the query wrapped in a pair of double asterisks. -/
def highlight (content q : String) : String :=
  pyReplace
    (pyReplace (pyReplace content q ("**" ++ q ++ "**")) (pyLower q) ("**" ++ q ++ "**"))
    (pyCapitalize q) ("**" ++ q ++ "**")

/-- One deduplicated page of the Relevance Scorer. -/
structure PageKey where
  file : String
  page : Nat
  text : String
deriving DecidableEq

/-- One entry of the Relevance Scorer's result list. -/
structure RankEntry where
  file : String
  page : Nat
  text : String
  score : Nat
deriving DecidableEq

/-- DataFrame drop_duplicates: keep the first occurrence of each
distinct row, preserving order. -/
def dedupAux (seen : List PageKey) : List PageKey → List PageKey
  | [] => []
  | x :: xs => if seen.contains x then dedupAux seen xs else x :: dedupAux (x :: seen) xs

/-- The unique (File, Page, Full_Page_Text) triples of the corpus, in
order of first appearance. -/
def uniquePages (df : List LineRecord) : List PageKey :=
  dedupAux [] (df.map (fun r => ⟨r.file, r.page, r.full_page_text⟩))

/-- The scoring loop of the Chat/Query mode: the query is lowercased and
whitespace-split, and each token occurring in the lowercased page text
adds one to the score. -/
def pageScore (q text : String) : Nat :=
  (splitWs (lowerL q.data)).foldl
    (fun s tok => if occursIn tok (lowerL text.data) then s + 1 else s) 0

/-- Pages scored by the Chat/Query loop, kept only when the score is
positive, in page order. -/
def scoreResults (q : String) : List PageKey → List RankEntry
  | [] => []
  | p :: ps =>
    (if pageScore q p.text > 0 then [⟨p.file, p.page, p.text, pageScore q p.text⟩] else []) ++
    scoreResults q ps

/-- Stable descending insertion: the new element goes after every
element of strictly greater score and before every other, which is
exactly where Python's stable sorted with reverse=True puts it. -/
def insD (x : RankEntry) : List RankEntry → List RankEntry
  | [] => [x]
  | y :: ys => if x.score < y.score then y :: insD x ys else x :: y :: ys

/-- Stable sort by descending score, the model of
sorted(results, key=lambda x: x[Score], reverse=True). -/
def isortD : List RankEntry → List RankEntry
  | [] => []
  | x :: xs => insD x (isortD xs)

/-- The Relevance Scorer of the Chat/Query mode: deduplicate to unique
pages, score, drop zero scores, sort by descending score. -/
def rank (df : List LineRecord) (q : String) : List RankEntry :=
  isortD (scoreResults q (uniquePages df))

/-- Specification-side reading of the classifier pattern: the lowercased
content literally begins with one of the fixed markers. -/
def ActionStartSpec (s : String) : Prop :=
  (((((((∃ c rest, lowerL s.data = ("step ".data) ++ c :: rest ∧ isDigitB c = true) ∨
    (∃ rest, lowerL s.data = ("action".data) ++ rest)) ∨
    (∃ rest, lowerL s.data = '☐' :: rest)) ∨
    (∃ rest, lowerL s.data = '☑' :: rest)) ∨
    (∃ rest, lowerL s.data = '✓' :: rest)) ∨
    (∃ rest, lowerL s.data = '•' :: rest)) ∨
    (∃ c rest, lowerL s.data = ("rule ".data) ++ c :: rest ∧ isDigitB c = true)) ∨
  (∃ rest, lowerL s.data = ("metric".data) ++ rest)

theorem pfx_iff (p : List Char) : ∀ l, pfx p l = true ↔ ∃ r, l = p ++ r := by
  induction p with
  | nil =>
    intro l
    simp [pfx]
  | cons a ps ih =>
    intro l
    cases l with
    | nil =>
      simp [pfx]
    | cons b ls =>
      simp only [pfx, Bool.and_eq_true, beq_iff_eq, ih ls, List.cons_append, List.cons.injEq]
      constructor
      · rintro ⟨hab, r, hr⟩
        exact ⟨r, hab.symm, hr⟩
      · rintro ⟨r, hab, hr⟩
        exact ⟨hab.symm, r, hr⟩

theorem pfx_self_append (p r : List Char) : pfx p (p ++ r) = true :=
  (pfx_iff p (p ++ r)).2 ⟨r, rfl⟩

theorem occursIn_iff (p : List Char) : ∀ s, occursIn p s = true ↔ ∃ u v, s = u ++ p ++ v := by
  intro s
  induction s with
  | nil =>
    simp only [occursIn, List.isEmpty_iff]
    constructor
    · intro h
      exact ⟨[], [], by simp [h]⟩
    · rintro ⟨u, v, huv⟩
      have hp : p = [] := by
        cases u <;> cases p <;> simp_all
      exact hp
  | cons c t ih =>
    simp only [occursIn, Bool.or_eq_true, pfx_iff, ih]
    constructor
    · rintro (⟨r, hr⟩ | ⟨u, v, huv⟩)
      · exact ⟨[], r, by simp [hr]⟩
      · exact ⟨c :: u, v, by simp [huv]⟩
    · rintro ⟨u, v, huv⟩
      cases u with
      | nil =>
        exact Or.inl ⟨v, by simpa using huv⟩
      | cons d u =>
        rw [List.cons_append, List.cons_append, List.cons.injEq] at huv
        exact Or.inr ⟨u, v, huv.2⟩

theorem occursIn_self_append (p r : List Char) : occursIn p (p ++ r) = true :=
  (occursIn_iff p (p ++ r)).2 ⟨[], r, by simp⟩

theorem occursIn_append_right (p a b : List Char) (h : occursIn p b = true) :
    occursIn p (a ++ b) = true := by
  rcases (occursIn_iff p b).1 h with ⟨u, v, huv⟩
  exact (occursIn_iff p (a ++ b)).2 ⟨a ++ u, v, by simp [huv]⟩

theorem occursIn_trans (a b s : List Char) (hab : occursIn a b = true)
    (hbs : occursIn b s = true) : occursIn a s = true := by
  rcases (occursIn_iff a b).1 hab with ⟨u, v, huv⟩
  rcases (occursIn_iff b s).1 hbs with ⟨x, y, hxy⟩
  exact (occursIn_iff a s).2 ⟨x ++ u, v ++ y, by simp [hxy, huv]⟩

theorem foldl_if_count {α : Type} (f : α → Bool) :
    ∀ (l : List α) (n : Nat),
      l.foldl (fun s a => if f a then s + 1 else s) n = n + l.countP f := by
  intro l
  induction l with
  | nil =>
    intro n
    simp
  | cons a l ih =>
    intro n
    by_cases hf : f a
    · simp [List.foldl_cons, hf, ih, List.countP_cons]
      omega
    · simp [List.foldl_cons, hf, ih, List.countP_cons]

theorem pfx_digit_iff (kw l : List Char) (n : Nat) (hn : kw.length = n) :
    (pfx kw l && (match l.drop n with | [] => false | c :: _ => isDigitB c)) = true ↔
      ∃ c rest, l = kw ++ c :: rest ∧ isDigitB c = true := by
  subst hn
  constructor
  · intro h
    rw [Bool.and_eq_true] at h
    rcases (pfx_iff kw l).1 h.1 with ⟨r, hr⟩
    subst hr
    rw [List.drop_left] at h
    cases r with
    | nil => exact absurd h.2 (by simp)
    | cons c rest => exact ⟨c, rest, rfl, h.2⟩
  · rintro ⟨c, rest, hl, hd⟩
    subst hl
    rw [Bool.and_eq_true]
    refine ⟨pfx_self_append _ _, ?_⟩
    rw [List.drop_left]
    exact hd

theorem matchesAction_iff (s : String) : matchesAction s = true ↔ ActionStartSpec s := by
  rw [matchesAction, ActionStartSpec]
  simp only [Bool.or_eq_true, pfx_digit_iff ("step ".data) (lowerL s.data) 5 (by decide),
    pfx_digit_iff ("rule ".data) (lowerL s.data) 5 (by decide), pfx_iff, List.singleton_append]

/-- C3: the Action Classifier selects exactly the records whose content
begins (after lowercasing, i.e. case-insensitively on the alphabetic
alternatives and literally on the glyphs) with one of the fixed markers:
Step plus digits, Action, a checkbox, checkmark or bullet glyph, Rule
plus digits, or Metric; a marker occurring only mid-line does not
qualify.  In particular a line Step 1: do X is classified as an action
and a line See Step 1 above is not. -/
theorem c3_action_classifier :
    (∀ (df : List LineRecord) (r : LineRecord),
        r ∈ extract_action_items df ↔ r ∈ df ∧ ActionStartSpec r.content) ∧
    matchesAction ("Step 1: do X") = true ∧
    matchesAction ("See Step 1 above") = false ∧
    matchesAction ("RULE 7 applies") = true ∧
    matchesAction ("☐ buy milk") = true ∧
    matchesAction ("Stepladder 2") = false := by
  refine ⟨?_, by decide, by decide, by decide, by decide, by decide⟩
  intro df r
  rw [extract_action_items, List.mem_filter, matchesAction_iff]

/-- C2: the Relevance Scorer's page score is the multiplicity-counted
number of whitespace tokens of the lowercased query that occur as
substrings of the lowercased page text; on the two-page example corpus
with query dopamine habit the first page scores 2 and the second page is
excluded, a repeated query word counts once per query occurrence, and
repeated page occurrences of a token add nothing. -/
theorem c2_relevance_score :
    (∀ q text : String,
        pageScore q text =
          (splitWs (lowerL q.data)).countP (fun tok => occursIn tok (lowerL text.data))) ∧
    rank [⟨"f", 1, 0, "focus and dopamine drive habit", "focus and dopamine drive habit"⟩,
          ⟨"f", 2, 0, "unrelated content only", "unrelated content only"⟩]
        ("dopamine habit") =
      [⟨"f", 1, "focus and dopamine drive habit", 2⟩] ∧
    pageScore ("dopamine dopamine") ("dopamine x") = 2 ∧
    pageScore ("dopamine") ("dopamine dopamine dopamine") = 1 := by
  refine ⟨?_, by decide, by decide, by decide⟩
  intro q text
  rw [pageScore, foldl_if_count, Nat.zero_add]

theorem mem_insD (a x : RankEntry) : ∀ l, a ∈ insD x l ↔ a = x ∨ a ∈ l := by
  intro l
  induction l with
  | nil => simp [insD]
  | cons y ys ih =>
    by_cases h : x.score < y.score
    · simp only [insD, if_pos h, List.mem_cons, ih]
      tauto
    · simp only [insD, if_neg h, List.mem_cons]

theorem pairwise_insD (x : RankEntry) :
    ∀ l, List.Pairwise (fun a b => b.score ≤ a.score) l →
      List.Pairwise (fun a b => b.score ≤ a.score) (insD x l) := by
  intro l
  induction l with
  | nil =>
    intro h
    simp [insD]
  | cons y ys ih =>
    intro h
    rw [List.pairwise_cons] at h
    by_cases hxy : x.score < y.score
    · rw [insD, if_pos hxy, List.pairwise_cons]
      refine ⟨?_, ih h.2⟩
      intro a ha
      rcases (mem_insD a x ys).1 ha with rfl | ha
      · omega
      · exact h.1 a ha
    · rw [insD, if_neg hxy, List.pairwise_cons]
      refine ⟨?_, List.pairwise_cons.2 h⟩
      intro a ha
      rcases List.mem_cons.1 ha with rfl | ha
      · omega
      · have := h.1 a ha
        omega

theorem pairwise_isortD :
    ∀ l, List.Pairwise (fun a b => b.score ≤ a.score) (isortD l) := by
  intro l
  induction l with
  | nil => simp [isortD]
  | cons x xs ih => exact pairwise_insD x (isortD xs) ih

theorem filter_insD (k : Nat) (x : RankEntry) :
    ∀ l, (insD x l).filter (fun r => r.score == k) =
      if x.score == k then x :: l.filter (fun r => r.score == k)
      else l.filter (fun r => r.score == k) := by
  intro l
  induction l with
  | nil =>
    by_cases hxk : x.score = k <;> simp [insD, hxk]
  | cons y ys ih =>
    by_cases hxy : x.score < y.score
    · rw [insD, if_pos hxy]
      simp only [List.filter_cons, ih]
      by_cases hxk : x.score = k
      · have hyk : ¬ y.score = k := by omega
        simp [hxk, hyk]
      · by_cases hyk : y.score = k <;> simp [hxk, hyk]
    · rw [insD, if_neg hxy]
      by_cases hxk : x.score = k
      · by_cases hyk : y.score = k <;> simp [List.filter_cons, hxk, hyk]
      · by_cases hyk : y.score = k <;> simp [List.filter_cons, hxk, hyk]

theorem filter_isortD (k : Nat) :
    ∀ l, (isortD l).filter (fun r => r.score == k) = l.filter (fun r => r.score == k) := by
  intro l
  induction l with
  | nil => rfl
  | cons x xs ih =>
    rw [isortD, filter_insD, ih, List.filter_cons]

theorem mem_scoreResults (q : String) (r : RankEntry) :
    ∀ ps, r ∈ scoreResults q ps → 0 < r.score := by
  intro ps
  induction ps with
  | nil => simp [scoreResults]
  | cons p ps ih =>
    intro h
    rw [scoreResults, List.mem_append] at h
    rcases h with h | h
    · by_cases hs : pageScore q p.text > 0
      · rw [if_pos hs, List.mem_singleton] at h
        subst h
        exact hs
      · rw [if_neg hs] at h
        exact absurd h (by simp)
    · exact ih h

theorem sublist_dedupAux : ∀ (l seen : List PageKey), List.Sublist (dedupAux seen l) l := by
  intro l
  induction l with
  | nil =>
    intro seen
    simp [dedupAux]
  | cons x xs ih =>
    intro seen
    by_cases h : seen.contains x
    · rw [dedupAux, if_pos h]
      exact (ih seen).trans (List.sublist_cons_self x xs)
    · rw [dedupAux, if_neg h]
      exact (ih (x :: seen)).cons₂ x

/-- C4: for every corpus and query the Relevance Scorer's output is
sorted by weakly decreasing score, contains only positive scores, and is
a stable reordering: for every score value the entries carrying that
score appear exactly as they do in the unsorted score pass, which itself
follows the order of first appearance of the pages in the corpus (the
deduplicated page list is a sublist of the corpus page projection). -/
theorem c4_rank_order (df : List LineRecord) (q : String) :
    List.Pairwise (fun a b => b.score ≤ a.score) (rank df q) ∧
    (∀ r ∈ rank df q, 0 < r.score) ∧
    (∀ k : Nat, (rank df q).filter (fun r => r.score == k) =
        (scoreResults q (uniquePages df)).filter (fun r => r.score == k)) ∧
    List.Sublist (uniquePages df) (df.map (fun r => ⟨r.file, r.page, r.full_page_text⟩)) := by
  refine ⟨pairwise_isortD _, ?_, fun k => filter_isortD k _, sublist_dedupAux _ _⟩
  intro r hr
  have hmem : r ∈ scoreResults q (uniquePages df) := by
    have : ∀ l, r ∈ isortD l → r ∈ l := by
      intro l
      induction l with
      | nil => simp [isortD]
      | cons x xs ih =>
        intro h
        rw [isortD] at h
        rcases (mem_insD r x (isortD xs)).1 h with rfl | h
        · exact List.mem_cons_self r xs
        · exact List.mem_cons_of_mem x (ih h)
    exact this _ hr
  exact mem_scoreResults q r _ hmem

/-- C5: for every corpus and non-empty query, Substring Search returns
exactly the records whose lowercased content literally contains the
lowercased query as a contiguous substring (no pattern semantics); in
particular dopamine matches a line containing Dopamine release, and a.b
does not match axb because the dot is a literal character. -/
theorem c5_search :
    (∀ (df : List LineRecord) (q : String), q ≠ "" →
        search df q = df.filter (fun r => searchMatch q r.content)) ∧
    (∀ q s : String, searchMatch q s = true ↔
        ∃ u v, lowerL s.data = u ++ lowerL q.data ++ v) ∧
    searchMatch ("dopamine") ("Dopamine release") = true ∧
    searchMatch ("a.b") ("axb") = false := by
  refine ⟨?_, ?_, by decide, by decide⟩
  · intro df q hq
    rw [search, if_neg hq]
  · intro q s
    exact occursIn_iff _ _

theorem c5_search_witness :
    search [⟨"f", 1, 0, "Dopamine release", "Dopamine release"⟩] ("dopamine") =
      [⟨"f", 1, 0, "Dopamine release", "Dopamine release"⟩] := by
  rw [c5_search.1 _ _ (by decide)]
  decide

theorem lowerChar_ws (c : Char) (h : isWs c = true) : lowerChar c = c := by
  simp only [isWs, Bool.or_eq_true, beq_iff_eq] at h
  rcases h with ((((h | h) | h) | h) | h) | h <;> subst h <;> decide

theorem splitWsAux_all_ws :
    ∀ (l : List Char) (toks : List (List Char)), (∀ c ∈ l, isWs c = true) →
      splitWsAux [] toks l = toks.reverse := by
  intro l
  induction l with
  | nil =>
    intro toks h
    rfl
  | cons c t ih =>
    intro toks h
    rw [splitWsAux, if_pos (h c (List.mem_cons_self c t))]
    exact ih toks (fun d hd => h d (List.mem_cons_of_mem c hd))

theorem splitWs_all_ws (l : List Char) (h : ∀ c ∈ l, isWs c = true) : splitWs l = [] :=
  splitWsAux_all_ws l [] h

theorem scoreResults_zero (q : String) (hq : splitWs (lowerL q.data) = []) :
    ∀ ps, scoreResults q ps = [] := by
  intro ps
  induction ps with
  | nil => rfl
  | cons p ps ih =>
    have hz : pageScore q p.text = 0 := by
      rw [pageScore, hq]
      rfl
    rw [scoreResults, hz, ih]
    simp

theorem rank_ws_query (df : List LineRecord) (q : String)
    (h : ∀ c ∈ q.data, isWs c = true) : rank df q = [] := by
  have hws : ∀ c ∈ lowerL q.data, isWs c = true := by
    intro c hc
    rcases List.mem_map.1 hc with ⟨d, hd, rfl⟩
    rw [lowerChar_ws d (h d hd)]
    exact h d hd
  rw [rank, scoreResults_zero q (splitWs_all_ws _ hws)]
  rfl

/-- C1 counterexample: a whitespace-only (single space) query passed to
Substring Search does not produce an empty result set: on a one-line
corpus whose content is a b the search returns that record, because the
falsy-query guard lets a non-empty whitespace string through and the
space occurs in the content. -/
theorem c1_counterexample :
    search [⟨"f", 1, 0, "a b", "a b"⟩] (" ") = [⟨"f", 1, 0, "a b", "a b"⟩] ∧
    (" " : String) ≠ "" ∧ (∀ c ∈ (" " : String).data, isWs c = true) := by
  refine ⟨by decide, by decide, by decide⟩

/-- C1 amended: an empty query yields the empty sequence from both
Substring Search (the falsy-query guard) and the Relevance Scorer, and
every whitespace-only query yields the empty sequence from the Relevance
Scorer (its whitespace tokenization leaves no tokens); but a non-empty
whitespace-only query reaching Substring Search is treated as a literal
substring query and returns every record whose content contains it,
which can be non-empty; neither component fails. -/
theorem c1_amended (df : List LineRecord) (q : String) :
    (q = "" → search df q = [] ∧ rank df q = []) ∧
    ((∀ c ∈ q.data, isWs c = true) → rank df q = []) ∧
    (q ≠ "" → search df q = df.filter (fun r => searchMatch q r.content)) := by
  refine ⟨?_, rank_ws_query df q, ?_⟩
  · intro hq
    subst hq
    exact ⟨rfl, rank_ws_query df "" (by simp [String.data])⟩
  · intro hq
    rw [search, if_neg hq]

theorem c1_amended_witness :
    search ([] : List LineRecord) ("") = [] ∧
    rank [⟨"f", 1, 0, "a b", "a b"⟩] (" ") = [] ∧
    search [⟨"f", 1, 0, "a b", "a b"⟩] (" ") =
      List.filter (fun r => searchMatch (" ") r.content) [⟨"f", 1, 0, "a b", "a b"⟩] :=
  ⟨((c1_amended [] "").1 rfl).1,
   (c1_amended [⟨"f", 1, 0, "a b", "a b"⟩] " ").2.1 (by decide),
   (c1_amended [⟨"f", 1, 0, "a b", "a b"⟩] " ").2.2 (by decide)⟩

/-- C8: one unparseable document in the batch contributes zero records,
its failure is reported as document name plus cause, and the records of
every other document are exactly what they would have been without it:
the build never fails as a whole. -/
theorem c8_batch_resilience (pre post : List RawDoc) (nm e : String) :
    load_and_parse_pdfs (pre ++ { name := nm, parse := .error e } :: post) =
      load_and_parse_pdfs pre ++ load_and_parse_pdfs post ∧
    (nm, e) ∈ parseFailures (pre ++ { name := nm, parse := .error e } :: post) := by
  induction pre with
  | nil =>
    refine ⟨rfl, ?_⟩
    rw [List.nil_append, parseFailures]
    exact List.mem_append.2 (Or.inl (List.mem_singleton.2 rfl))
  | cons d pre ih =>
    refine ⟨?_, ?_⟩
    · rw [List.cons_append, load_and_parse_pdfs, ih.1, load_and_parse_pdfs, List.append_assoc]
    · rw [List.cons_append, parseFailures]
      exact List.mem_append.2 (Or.inr ih.2)

theorem dropWs_head (c : Char) (t : List Char) :
    ∀ l, dropWs l = c :: t → isWs c = false := by
  intro l
  induction l with
  | nil =>
    intro h
    exact absurd h (by simp [dropWs])
  | cons d l ih =>
    intro h
    rw [dropWs] at h
    by_cases hd : isWs d
    · rw [if_pos hd] at h
      exact ih h
    · rw [if_neg hd] at h
      rw [List.cons.injEq] at h
      rcases h with ⟨h1, h2⟩
      subst h1
      simpa using hd

theorem stripChars_has_solid (l : List Char) (h : stripChars l ≠ []) :
    ∃ c ∈ stripChars l, isWs c = false := by
  cases hb : dropWs (dropWs l).reverse with
  | nil => exact absurd (by rw [stripChars, hb]; rfl) h
  | cons c t =>
    refine ⟨c, ?_, dropWs_head c t _ hb⟩
    rw [stripChars, hb]
    exact List.mem_reverse.2 (List.mem_cons_self c t)

theorem mem_lineRecs (r : LineRecord) (file : String) (pnum : Nat) (full : String) :
    ∀ (lines : List String) (idx : Nat), r ∈ lineRecs file pnum full idx lines →
      r.file = file ∧ r.page = pnum ∧ r.full_page_text = full ∧
      ∃ line, r.content = pyStrip line ∧ pyStrip line ≠ "" := by
  intro lines
  induction lines with
  | nil => simp [lineRecs]
  | cons line rest ih =>
    intro idx h
    rw [lineRecs, List.mem_append] at h
    rcases h with h | h
    · by_cases hs : pyStrip line = ""
      · rw [if_pos hs] at h
        exact absurd h (by simp)
      · rw [if_neg hs, List.mem_singleton] at h
        subst h
        exact ⟨rfl, rfl, rfl, line, rfl, hs⟩
    · exact ih (idx + 1) h

theorem mem_pageRecords (r : LineRecord) (file : String) (pnum : Nat) (text : String)
    (h : r ∈ pageRecords file pnum text) :
    r.file = file ∧ r.page = pnum ∧ r.full_page_text = text ∧
      ∃ line, r.content = pyStrip line ∧ pyStrip line ≠ "" := by
  rw [pageRecords] at h
  by_cases ht : text = ""
  · rw [if_pos ht] at h
    exact absurd h (by simp)
  · rw [if_neg ht] at h
    exact mem_lineRecs r file pnum text _ 0 h

theorem mem_pagesRecords (r : LineRecord) (file : String) :
    ∀ (pages : List String) (pnum : Nat), r ∈ pagesRecords file pnum pages →
      r.file = file ∧ (∃ i, r.page = pnum + i ∧ pages[i]? = some r.full_page_text) ∧
      ∃ line, r.content = pyStrip line ∧ pyStrip line ≠ "" := by
  intro pages
  induction pages with
  | nil => simp [pagesRecords]
  | cons text rest ih =>
    intro pnum h
    rw [pagesRecords, List.mem_append] at h
    rcases h with h | h
    · rcases mem_pageRecords r file pnum text h with ⟨h1, h2, h3, h4⟩
      exact ⟨h1, ⟨0, by simpa using h2, by simpa using h3.symm⟩, h4⟩
    · rcases ih (pnum + 1) h with ⟨h1, ⟨i, hi1, hi2⟩, h4⟩
      refine ⟨h1, ⟨i + 1, by omega, by simpa using hi2⟩, h4⟩

theorem mem_docRecords (r : LineRecord) (d : RawDoc) (h : r ∈ docRecords d) :
    r.file = d.name ∧
    (∃ pages, d.parse = .ok pages ∧
      ∃ i, r.page = i + 1 ∧ pages[i]? = some r.full_page_text) ∧
    ∃ line, r.content = pyStrip line ∧ pyStrip line ≠ "" := by
  rw [docRecords] at h
  cases hp : d.parse with
  | error e =>
    rw [hp] at h
    exact absurd h (by simp)
  | ok pages =>
    rw [hp] at h
    rcases mem_pagesRecords r d.name pages 1 h with ⟨h1, ⟨i, hi1, hi2⟩, h4⟩
    exact ⟨h1, ⟨pages, rfl, i, by omega, hi2⟩, h4⟩

theorem mem_load (r : LineRecord) :
    ∀ docs, r ∈ load_and_parse_pdfs docs → ∃ d ∈ docs, r ∈ docRecords d := by
  intro docs
  induction docs with
  | nil => simp [load_and_parse_pdfs]
  | cons d rest ih =>
    intro h
    rw [load_and_parse_pdfs, List.mem_append] at h
    rcases h with h | h
    · exact ⟨d, List.mem_cons_self d rest, h⟩
    · rcases ih h with ⟨d2, hd2, hr⟩
      exact ⟨d2, List.mem_cons_of_mem d hd2, hr⟩

/-- C9: every record of a built corpus has a content that is non-empty
and not whitespace-only: the builder strips each line and appends a
record only when the stripped result is non-empty, so the content always
contains a non-whitespace character. -/
theorem c9_nonempty_content (docs : List RawDoc) (r : LineRecord)
    (h : r ∈ load_and_parse_pdfs docs) :
    r.content ≠ "" ∧ ∃ c ∈ r.content.data, isWs c = false := by
  rcases mem_load r docs h with ⟨d, hd, hr⟩
  rcases mem_docRecords r d hr with ⟨h1, h2, line, hc, hne⟩
  have hdata : r.content.data = stripChars line.data := by
    rw [hc]
    rfl
  have hnil : stripChars line.data ≠ [] := by
    intro hx
    apply hne
    rw [pyStrip, hx]
  constructor
  · intro hx
    rw [hc] at hx
    exact hne hx
  · rw [hdata]
    exact stripChars_has_solid line.data hnil

theorem c9_nonempty_content_witness :
    (⟨"good.pdf", 1, 0, "hello", "hello\n  \nworld"⟩ : LineRecord).content ≠ "" ∧
    ∃ c ∈ (⟨"good.pdf", 1, 0, "hello", "hello\n  \nworld"⟩ : LineRecord).content.data,
      isWs c = false :=
  c9_nonempty_content [⟨"good.pdf", .ok ["hello\n  \nworld"]⟩]
    ⟨"good.pdf", 1, 0, "hello", "hello\n  \nworld"⟩ (by decide)

/-- C10: in a corpus built from documents with pairwise distinct names
(the spec stipulates the file identifier is unique per upload), any two
records sharing the same file and page carry the identical
full_page_text, and that text is exactly the text extracted for that
page of that document (the page's entry in the parsed page list). -/
theorem c10_page_text_consistency (docs : List RawDoc)
    (hnames : (docs.map RawDoc.name).Nodup) :
    (∀ r1 r2 : LineRecord, r1 ∈ load_and_parse_pdfs docs → r2 ∈ load_and_parse_pdfs docs →
      r1.file = r2.file → r1.page = r2.page → r1.full_page_text = r2.full_page_text) ∧
    (∀ r : LineRecord, r ∈ load_and_parse_pdfs docs → ∃ d ∈ docs, r.file = d.name ∧
      ∃ pages, d.parse = .ok pages ∧ ∃ i, r.page = i + 1 ∧
        pages[i]? = some r.full_page_text) := by
  constructor
  · intro r1 r2 h1 h2 hfile hpage
    rcases mem_load r1 docs h1 with ⟨d1, hd1, hr1⟩
    rcases mem_load r2 docs h2 with ⟨d2, hd2, hr2⟩
    rcases mem_docRecords r1 d1 hr1 with ⟨hf1, ⟨pages1, hp1, i1, hi1, ht1⟩, h41⟩
    rcases mem_docRecords r2 d2 hr2 with ⟨hf2, ⟨pages2, hp2, i2, hi2, ht2⟩, h42⟩
    have hdd : d1 = d2 := by
      refine List.inj_on_of_nodup_map hnames hd1 hd2 ?_
      rw [← hf1, ← hf2, hfile]
    subst hdd
    rw [hp1] at hp2
    have hpp : pages1 = pages2 := by
      simpa using hp2
    subst hpp
    have hii : i1 = i2 := by omega
    subst hii
    rw [ht1] at ht2
    simpa using ht2
  · intro r h
    rcases mem_load r docs h with ⟨d, hd, hr⟩
    rcases mem_docRecords r d hr with ⟨hf, ⟨pages, hp, i, hi, ht⟩, h4⟩
    exact ⟨d, hd, hf, pages, hp, i, hi, ht⟩

theorem c10_page_text_consistency_witness :
    (⟨"a.pdf", 1, 0, "one", "one\ntwo"⟩ : LineRecord).full_page_text =
      (⟨"a.pdf", 1, 1, "two", "one\ntwo"⟩ : LineRecord).full_page_text :=
  (c10_page_text_consistency [⟨"a.pdf", .ok ["one\ntwo"]⟩, ⟨"b.pdf", .ok ["three"]⟩]
    (by decide)).1 ⟨"a.pdf", 1, 0, "one", "one\ntwo"⟩ ⟨"a.pdf", 1, 1, "two", "one\ntwo"⟩
    (by decide) (by decide) (by decide) (by decide)

theorem occursIn_nil (p : List Char) : occursIn [] p = true := by
  cases p <;> rfl

theorem occursIn_cons_of (w : List Char) (c : Char) (t : List Char)
    (h : occursIn w t = true) : occursIn w (c :: t) = true := by
  rw [occursIn, Bool.or_eq_true]
  exact Or.inr h

theorem pfx_head_ne (ph c : Char) (pt x : List Char) (h : (ph == c) = false) :
    pfx (ph :: pt) (c :: x) = false := by
  rw [pfx, h, Bool.false_and]

theorem replAux_skip (old nw : List Char) :
    ∀ (t : List Char) (k : Nat), replAux old nw t k = replAux old nw (t.drop k) 0 := by
  intro t
  induction t with
  | nil =>
    intro k
    cases k <;> rfl
  | cons c t ih =>
    intro k
    cases k with
    | zero => rfl
    | succ k => exact ih k

theorem replAux_ne_step (q nw : List Char) (c : Char) (x : List Char)
    (h : pfx q (c :: x) = false) : replAux q nw (c :: x) 0 = c :: replAux q nw x 0 := by
  have e : replAux q nw (c :: x) 0 =
      if pfx q (c :: x) then nw ++ replAux q nw x (q.length - 1)
      else c :: replAux q nw x 0 := rfl
  rw [e, if_neg (by simp [h])]

theorem replAux_no_occ (p nw : List Char) :
    ∀ s, occursIn p s = false → replAux p nw s 0 = s := by
  intro s
  induction s with
  | nil =>
    intro h
    rfl
  | cons c t ih =>
    intro h
    rw [occursIn, Bool.or_eq_false_iff] at h
    rw [replAux_ne_step p nw c t h.1, ih h.2]

theorem replChars_ne (s old nw : List Char) (h : old ≠ []) :
    replChars s old nw = replAux old nw s 0 := by
  rw [replChars, if_neg (by simpa using h)]

theorem replChars_no_occ (s old nw : List Char) (h : occursIn old s = false) :
    replChars s old nw = s := by
  have hold : old ≠ [] := by
    intro hx
    subst hx
    rw [occursIn_nil] at h
    exact absurd h (by simp)
  rw [replChars_ne s old nw hold, replAux_no_occ old nw s h]

theorem replAux_pass (ph : Char) (pt nw : List Char) :
    ∀ (w v : List Char), (∀ c ∈ w, c ≠ ph) →
      replAux (ph :: pt) nw (w ++ v) 0 = w ++ replAux (ph :: pt) nw v 0 := by
  intro w
  induction w with
  | nil =>
    intro v h
    rfl
  | cons c w ih =>
    intro v h
    have hph : (ph == c) = false := by
      simp only [beq_eq_false_iff_ne]
      exact fun he => (h c (List.mem_cons_self c w)) he.symm
    rw [List.cons_append,
      replAux_ne_step (ph :: pt) nw c (w ++ v) (pfx_head_ne ph c pt (w ++ v) hph),
      ih v (fun d hd => h d (List.mem_cons_of_mem c hd))]
    simp

theorem pfx_through (x : Char) :
    ∀ (p u w : List Char), pfx p (u ++ x :: w) = true → x ∉ p → ∃ u1, u = p ++ u1 := by
  intro p
  induction p with
  | nil =>
    intro u w h hx
    exact ⟨u, rfl⟩
  | cons a p ih =>
    intro u w h hx
    cases u with
    | nil =>
      rw [List.nil_append, pfx, Bool.and_eq_true, beq_iff_eq] at h
      exfalso
      apply hx
      rw [← h.1]
      exact List.mem_cons_self a p
    | cons b u =>
      rw [List.cons_append, pfx, Bool.and_eq_true, beq_iff_eq] at h
      rcases ih u w h.2 (fun hm => hx (List.mem_cons_of_mem a hm)) with ⟨u1, hu⟩
      exact ⟨u1, by rw [List.cons_append, h.1, hu]⟩

theorem replAux_match (qh : Char) (qt nw : List Char) :
    ∀ rest, replAux (qh :: qt) nw ((qh :: qt) ++ rest) 0 =
      nw ++ replAux (qh :: qt) nw rest 0 := by
  intro rest
  have e : replAux (qh :: qt) nw ((qh :: qt) ++ rest) 0 =
      if pfx (qh :: qt) (qh :: (qt ++ rest)) then
        nw ++ replAux (qh :: qt) nw (qt ++ rest) ((qh :: qt).length - 1)
      else qh :: replAux (qh :: qt) nw (qt ++ rest) 0 := rfl
  rw [e, if_pos (show pfx (qh :: qt) (qh :: (qt ++ rest)) = true from
    pfx_self_append (qh :: qt) rest)]
  have e2 : (qh :: qt).length - 1 = qt.length := rfl
  rw [e2, replAux_skip (qh :: qt) nw (qt ++ rest) qt.length, List.drop_left]

theorem replAux_marks (q nw : List Char) (hq : q ≠ []) :
    ∀ s, occursIn q s = true → occursIn nw (replAux q nw s 0) = true := by
  intro s
  induction s with
  | nil =>
    intro h
    rw [occursIn, List.isEmpty_iff] at h
    exact absurd h hq
  | cons c t ih =>
    intro h
    by_cases hp : pfx q (c :: t) = true
    · have e : replAux q nw (c :: t) 0 =
          if pfx q (c :: t) then nw ++ replAux q nw t (q.length - 1)
          else c :: replAux q nw t 0 := rfl
      rw [e, if_pos hp]
      exact occursIn_self_append nw _
    · rw [replAux_ne_step q nw c t (by simpa using hp)]
      rw [occursIn, Bool.or_eq_true] at h
      rcases h with h | h
      · exact absurd h hp
      · exact occursIn_cons_of nw c _ (ih h)

/-- The marked form of a query: the query between single pairs of double
asterisks, the list-level image of one replacement. -/
def siteL (q : List Char) : List Char :=
  '*' :: '*' :: q ++ ['*', '*']

/-- The doubly marked form of a query, produced when two replacement
passes coincide. -/
def site2L (q : List Char) : List Char :=
  '*' :: '*' :: '*' :: '*' :: q ++ ['*', '*', '*', '*']

theorem toNat_ofNat_small (n : Nat) (h : n < 55296) : (Char.ofNat n).toNat = n := by
  have hv : n.isValidChar := Or.inl h
  rw [Char.ofNat, dif_pos hv]
  rfl

theorem lowerChar_fix_iff (c : Char) : lowerChar c = c ↔ ¬ (65 ≤ c.toNat ∧ c.toNat ≤ 90) := by
  constructor
  · intro hl hc
    rw [lowerChar, if_pos hc] at hl
    have := congrArg Char.toNat hl
    rw [toNat_ofNat_small _ (by omega)] at this
    omega
  · intro hc
    rw [lowerChar, if_neg hc]

theorem upperChar_ne_iff (c : Char) : upperChar c ≠ c ↔ (97 ≤ c.toNat ∧ c.toNat ≤ 122) := by
  constructor
  · intro h
    by_cases hc : 97 ≤ c.toNat ∧ c.toNat ≤ 122
    · exact hc
    · rw [upperChar, if_neg hc] at h
      exact absurd rfl h
  · intro hc h
    rw [upperChar, if_pos hc] at h
    have := congrArg Char.toNat h
    rw [toNat_ofNat_small _ (by omega)] at this
    omega

theorem upperChar_toNat (c : Char) (hc : 97 ≤ c.toNat ∧ c.toNat ≤ 122) :
    (upperChar c).toNat = c.toNat - 32 := by
  rw [upperChar, if_pos hc, toNat_ofNat_small _ (by omega)]

theorem ne_of_toNat_ne (a b : Char) (h : a.toNat ≠ b.toNat) : a ≠ b :=
  fun he => h (congrArg Char.toNat he)

theorem map_fix {α : Type} (f : α → α) :
    ∀ l : List α, l.map f = l → ∀ x ∈ l, f x = x := by
  intro l
  induction l with
  | nil => simp
  | cons a l ih =>
    intro h x hx
    rw [List.map_cons, List.cons.injEq] at h
    rcases List.mem_cons.1 hx with rfl | hx
    · exact h.1
    · exact ih h.2 x hx

theorem replB0 (q nw : List Char) (qh : Char) (qt : List Char) (hq : q = qh :: qt)
    (hqh : (qh == '*') = false) (v : List Char) :
    replAux q nw (siteL q ++ v) 0 = '*' :: '*' :: nw ++ '*' :: '*' :: replAux q nw v 0 := by
  have h1 : siteL q ++ v = '*' :: '*' :: (q ++ ('*' :: '*' :: v)) := by
    simp [siteL]
  rw [h1, hq]
  rw [replAux_ne_step _ nw '*' _ (pfx_head_ne qh '*' qt _ hqh),
    replAux_ne_step _ nw '*' _ (pfx_head_ne qh '*' qt _ hqh),
    replAux_match qh qt nw _,
    replAux_ne_step _ nw '*' _ (pfx_head_ne qh '*' qt _ hqh),
    replAux_ne_step _ nw '*' _ (pfx_head_ne qh '*' qt _ hqh)]
  simp

theorem replB (q : List Char) (hq : q ≠ []) (hstar : '*' ∉ q) :
    ∀ (n : Nat) (u v : List Char), u.length ≤ n →
      occursIn (site2L q) (replAux q (siteL q) (u ++ (siteL q ++ v)) 0) = true := by
  obtain ⟨qh, qt, rfl⟩ : ∃ qh qt, q = qh :: qt := by
    cases q with
    | nil => exact absurd rfl hq
    | cons a b => exact ⟨a, b, rfl⟩
  have hqh : (qh == '*') = false := by
    simp only [beq_eq_false_iff_ne]
    intro he
    exact hstar (he ▸ List.mem_cons_self qh qt)
  intro n
  induction n with
  | zero =>
    intro u v hu
    have hu0 : u = [] := List.length_eq_zero.1 (Nat.le_zero.1 hu)
    subst hu0
    rw [List.nil_append, replB0 _ _ qh qt rfl hqh v]
    refine (occursIn_iff _ _).2 ⟨[], replAux (qh :: qt) (siteL (qh :: qt)) v 0, ?_⟩
    simp [site2L, siteL]
  | succ n ih =>
    intro u v hu
    cases u with
    | nil =>
      rw [List.nil_append, replB0 _ _ qh qt rfl hqh v]
      refine (occursIn_iff _ _).2
        ⟨[], replAux (qh :: qt) (siteL (qh :: qt)) v 0, ?_⟩
      simp [site2L, siteL]
    | cons c u =>
      by_cases hp : pfx (qh :: qt) ((c :: u) ++ (siteL (qh :: qt) ++ v)) = true
      · have hsh : (c :: u) ++ (siteL (qh :: qt) ++ v) =
            (c :: u) ++ '*' :: ('*' :: (qh :: qt) ++ ('*' :: '*' :: v)) := by
          simp [siteL]
        rcases pfx_through '*' (qh :: qt) (c :: u) ('*' :: (qh :: qt) ++ ('*' :: '*' :: v))
            (by rw [← hsh]; exact hp) hstar with ⟨u1, hu1⟩
        have hrw : (c :: u) ++ (siteL (qh :: qt) ++ v) =
            (qh :: qt) ++ (u1 ++ (siteL (qh :: qt) ++ v)) := by
          rw [hu1, List.append_assoc]
        rw [hrw, replAux_match qh qt _ _]
        apply occursIn_append_right
        apply ih u1 v
        have : (c :: u).length = (qh :: qt).length + u1.length := by
          rw [hu1, List.length_append]
        have hcu : (c :: u).length ≤ n + 1 := hu
        simp only [List.length_cons] at this hcu
        omega
      · rw [List.cons_append, replAux_ne_step _ _ c _ (by rw [← List.cons_append]; simpa using hp)]
        exact occursIn_cons_of _ c _ (ih u v (by simpa using Nat.le_of_succ_le_succ hu))

theorem replB_occ (q : List Char) (hq : q ≠ []) (hstar : '*' ∉ q) (s : List Char)
    (h : occursIn (siteL q) s = true) :
    occursIn (site2L q) (replAux q (siteL q) s 0) = true := by
  rcases (occursIn_iff _ _).1 h with ⟨u, v, hs⟩
  rw [hs]
  have := replB q hq hstar u.length u v (Nat.le_refl _)
  rw [← List.append_assoc] at this
  exact this

theorem replD (ph : Char) (pt nw w2 : List Char) (hw : ∀ c ∈ w2, c ≠ ph)
    (hw2 : ∃ w1, w2 = '*' :: w1) (hstar : '*' ∉ ph :: pt) :
    ∀ (n : Nat) (u v : List Char), u.length ≤ n →
      occursIn w2 (replAux (ph :: pt) nw (u ++ (w2 ++ v)) 0) = true := by
  intro n
  induction n with
  | zero =>
    intro u v hu
    have hu0 : u = [] := List.length_eq_zero.1 (Nat.le_zero.1 hu)
    subst hu0
    rw [List.nil_append, replAux_pass ph pt nw w2 v hw]
    exact occursIn_self_append _ _
  | succ n ih =>
    intro u v hu
    cases u with
    | nil =>
      rw [List.nil_append, replAux_pass ph pt nw w2 v hw]
      exact occursIn_self_append _ _
    | cons c u =>
      rcases hw2 with ⟨w1, hw1⟩
      by_cases hp : pfx (ph :: pt) ((c :: u) ++ (w2 ++ v)) = true
      · have hsh : (c :: u) ++ (w2 ++ v) = (c :: u) ++ '*' :: (w1 ++ v) := by
          rw [hw1]
          simp
        rcases pfx_through '*' (ph :: pt) (c :: u) (w1 ++ v)
            (by rw [← hsh]; exact hp) hstar with ⟨u1, hu1⟩
        have hrw : (c :: u) ++ (w2 ++ v) = (ph :: pt) ++ (u1 ++ (w2 ++ v)) := by
          rw [hu1, List.append_assoc]
        rw [hrw, replAux_match ph pt _ _]
        apply occursIn_append_right
        apply ih u1 v
        have : (c :: u).length = (ph :: pt).length + u1.length := by
          rw [hu1, List.length_append]
        have hcu : (c :: u).length ≤ n + 1 := hu
        simp only [List.length_cons] at this hcu
        omega
      · rw [List.cons_append, replAux_ne_step _ _ c _ (by rw [← List.cons_append]; simpa using hp)]
        exact occursIn_cons_of _ c _ (ih u v (by simpa using Nat.le_of_succ_le_succ hu))

theorem replD_occ (ph : Char) (pt nw w2 : List Char) (hw : ∀ c ∈ w2, c ≠ ph)
    (hw2 : ∃ w1, w2 = '*' :: w1) (hstar : '*' ∉ ph :: pt) (s : List Char)
    (h : occursIn w2 s = true) :
    occursIn w2 (replAux (ph :: pt) nw s 0) = true := by
  rcases (occursIn_iff _ _).1 h with ⟨u, v, hs⟩
  rw [hs]
  have := replD ph pt nw w2 hw hw2 hstar u.length u v (Nat.le_refl _)
  rw [← List.append_assoc] at this
  exact this

/-- C6: the highlight step attempts the literal replacement in exactly
three casings, as typed, lowercased and capitalized: an occurrence in
any of the three forms is wrapped in the double-asterisk marker, while
content containing none of the three forms, such as a mixed-interior
casing distinct from all three, is returned unchanged. -/
theorem c6_highlight :
    (∀ (content q : String),
        occursIn q.data content.data = false →
        occursIn (pyLower q).data content.data = false →
        occursIn (pyCapitalize q).data content.data = false →
        highlight content q = content) ∧
    highlight ("x aBc y") ("aBc") = ("x **aBc** y") ∧
    highlight ("x abc y") ("aBc") = ("x **aBc** y") ∧
    highlight ("x Abc y") ("aBc") = ("x **aBc** y") ∧
    highlight ("x ABc y") ("aBc") = ("x ABc y") := by
  refine ⟨?_, by decide, by decide, by decide, by decide⟩
  intro content q h1 h2 h3
  rw [highlight]
  have e1 : pyReplace content q ("**" ++ q ++ "**") = content := by
    show (⟨replChars content.data q.data (("**" ++ q ++ "**").data)⟩ : String) = content
    rw [replChars_no_occ _ _ _ h1]
  rw [e1]
  have e2 : pyReplace content (pyLower q) ("**" ++ q ++ "**") = content := by
    show (⟨replChars content.data (pyLower q).data (("**" ++ q ++ "**").data)⟩ : String) =
      content
    rw [replChars_no_occ _ _ _ h2]
  rw [e2]
  show (⟨replChars content.data (pyCapitalize q).data (("**" ++ q ++ "**").data)⟩ : String) =
    content
  rw [replChars_no_occ _ _ _ h3]

theorem c6_highlight_witness : highlight ("no match here") ("zq") = ("no match here") :=
  c6_highlight.1 ("no match here") ("zq") (by decide) (by decide) (by decide)

/-- C7 counterexample: for the all-lowercase query a**a occurring in
the content aa**a, the highlight output is **a**a****a**, which contains
no doubly marked span ****a**a****: a query containing asterisks makes
the second replacement pass land on overlapping marker material, so the
claimed doubled wrapping does not appear. -/
theorem c7_counterexample :
    pyLower ("a**a") = ("a**a") ∧
    occursIn ("a**a").data ("aa**a").data = true ∧
    highlight ("aa**a") ("a**a") = ("**a**a****a**") ∧
    occursIn (("****" ++ "a**a" ++ "****").data) ((highlight ("aa**a") ("a**a")).data) = false := by
  refine ⟨by decide, by decide, by decide, by decide⟩




/-- C7 amended: for every query that is entirely lowercase (equal to its
own lowercasing), contains no asterisk character, and occurs literally
in the content, the as-typed and the lowercased replacement passes
coincide, so the highlight output contains the query wrapped in doubled
markers (****query****) rather than only a single marked span. -/
theorem c7_amended (content q : String) (hne : q ≠ "") (hlow : pyLower q = q)
    (hstar : '*' ∉ q.data) (hocc : occursIn q.data content.data = true) :
    occursIn (("****" ++ q ++ "****").data) ((highlight content q).data) = true := by
  have hqd : q.data ≠ [] := by
    intro h
    apply hne
    have := congrArg String.mk h
    simpa using this
  have hlowd : lowerL q.data = q.data := congrArg String.data hlow
  have hmd : ("**" ++ q ++ "**").data = siteL q.data := by
    rw [String.data_append, String.data_append]
    rfl
  have hw2 : ("****" ++ q ++ "****").data = site2L q.data := by
    rw [String.data_append, String.data_append]
    rfl
  have hhl : (highlight content q).data =
      replChars (replChars (replChars content.data q.data (("**" ++ q ++ "**").data))
        ((pyLower q).data) (("**" ++ q ++ "**").data))
        ((pyCapitalize q).data) (("**" ++ q ++ "**").data) := rfl
  rw [hw2, hhl, hmd]
  have hpl : (pyLower q).data = q.data := hlowd
  rw [hpl]
  rw [replChars_ne _ _ _ hqd, replChars_ne _ _ _ hqd]
  have hp1 : occursIn (siteL q.data)
      (replAux q.data (siteL q.data) content.data 0) = true :=
    replAux_marks q.data (siteL q.data) hqd content.data hocc
  have hp2 : occursIn (site2L q.data)
      (replAux q.data (siteL q.data) (replAux q.data (siteL q.data) content.data 0) 0) =
        true :=
    replB_occ q.data hqd hstar _ hp1
  cases hqc : q.data with
  | nil => exact absurd hqc hqd
  | cons qh qt =>
    have hl2 : lowerChar qh = qh ∧ qt.map lowerChar = qt := by
      have hx := hlowd
      rw [hqc, lowerL, List.map_cons, List.cons.injEq] at hx
      exact hx
    have hcap : (pyCapitalize q).data = upperChar qh :: qt := by
      rw [pyCapitalize, hqc]
      show upperChar qh :: qt.map lowerChar = upperChar qh :: qt
      rw [hl2.2]
    rw [hcap]
    rw [hqc] at hp2
    by_cases hup : upperChar qh = qh
    · have hcq : upperChar qh :: qt = q.data := by rw [hup, hqc]
      rw [hcq, hqc, replChars_ne _ _ _ (by simp)]
      have hsub : occursIn (siteL (qh :: qt)) (site2L (qh :: qt)) = true := by
        refine (occursIn_iff _ _).2 ⟨['*', '*'], ['*', '*'], ?_⟩
        simp [siteL, site2L]
      have hin : occursIn (siteL (qh :: qt))
          (replAux (qh :: qt) (siteL (qh :: qt))
            (replAux (qh :: qt) (siteL (qh :: qt)) content.data 0) 0) = true :=
        occursIn_trans _ _ _ hsub hp2
      exact replB_occ (qh :: qt) (by simp) (by rw [← hqc]; exact hstar) _ hin
    · have hrange : 97 ≤ qh.toNat ∧ qh.toNat ≤ 122 := (upperChar_ne_iff qh).1 hup
      have hCn : (upperChar qh).toNat = qh.toNat - 32 := upperChar_toNat qh hrange
      have hqfix : ∀ c ∈ q.data, lowerChar c = c := map_fix lowerChar q.data hlowd
      have hwC : ∀ c ∈ site2L (qh :: qt), c ≠ upperChar qh := by
        intro c hc
        have hcases : c = '*' ∨ c ∈ qh :: qt := by
          rw [site2L] at hc
          simp only [List.mem_cons, List.mem_append, List.mem_singleton] at hc
          simp only [List.mem_cons]
          tauto
        rcases hcases with rfl | hcq
        · apply ne_of_toNat_ne
          rw [hCn]
          show (42 : Nat) ≠ qh.toNat - 32
          omega
        · have hfix : lowerChar c = c := hqfix c (hqc ▸ hcq)
          have hnot : ¬ (65 ≤ c.toNat ∧ c.toNat ≤ 90) := (lowerChar_fix_iff c).1 hfix
          apply ne_of_toNat_ne
          rw [hCn]
          omega
      have hstarC : '*' ∉ upperChar qh :: qt := by
        intro hmem
        rcases List.mem_cons.1 hmem with he | he
        · have := congrArg Char.toNat he
          rw [hCn] at this
          have h42 : ('*' : Char).toNat = 42 := rfl
          omega
        · exact hstar (hqc ▸ List.mem_cons_of_mem qh he)
      rw [replChars_ne _ _ _ (by simp)]
      exact replD_occ (upperChar qh) qt (siteL (qh :: qt)) (site2L (qh :: qt)) hwC
        ⟨_, rfl⟩ hstarC _ hp2

theorem c4_rank_order_witness :
    0 < (⟨"f", 1, "focus and dopamine drive habit", 2⟩ : RankEntry).score :=
  (c4_rank_order
      [⟨"f", 1, 0, "focus and dopamine drive habit", "focus and dopamine drive habit"⟩,
       ⟨"f", 2, 0, "unrelated content only", "unrelated content only"⟩]
      ("dopamine habit")).2.1
    ⟨"f", 1, "focus and dopamine drive habit", 2⟩ (by decide)

theorem c7_amended_witness :
    occursIn (("****" ++ "abc" ++ "****").data) ((highlight ("say abc now") ("abc")).data) =
      true :=
  c7_amended ("say abc now") ("abc") (by decide) (by decide) (by decide) (by decide)

end PdfBrain
